import Mathlib

/-!
Verification of the geospatial subsystem of the nh-cpr-challenge repository:
the point-in-region classifier of `app.py` (`_point_in_polygon`,
`_point_in_geometry`, `api_detect_district`) and the Douglas-Peucker
simplifier of `simplify_geojson.py` (`point_line_distance`,
`douglas_peucker`, `round_coords`, `simplify_ring`).

Modelling conventions.
* Coordinates are exact rationals (`ℚ`); Python's binary floating point is
  abstracted to exact arithmetic, as usual for a shallow embedding.
* `point_line_distance` in the source returns `math.sqrt` of a rational
  quantity.  We embed the squared distance (`point_line_distance_sq`).
  Since `sqrt` is strictly monotone on nonnegative reals, every comparison
  the source performs between two distances (`dist > max_dist`) is mirrored
  exactly by comparing the squares, and the comparison `max_dist > epsilon`
  for `epsilon ≥ 0` is mirrored by `max_dist_sq > epsilon * epsilon`.
* Python code that can raise (`coordinates[0]` / `simplified[0]` on an
  empty list) is embedded with `Option`: `none` models the `IndexError`.
* `douglas_peucker` recurses on `coords[:max_idx+1]` and `coords[max_idx:]`;
  the recursion is embedded with a fuel parameter (`dpAux`), structural in
  the fuel, so that concrete instances compute.  Fuel `coords.length`
  always suffices because every recursive call strictly shortens the list
  (`1 ≤ max_idx` and `max_idx ≤ length - 2` whenever the recursive branch
  is taken); this is proved in `dpAux_congr`.
-/

namespace NH

/-- A coordinate pair `(x, y)` (longitude, latitude as planar Cartesian). -/
abbrev Point : Type := ℚ × ℚ

/-- Default point used for list indexing (`List.getD`); every access in the
lemmas below is proved to be in bounds, so the default is never observed. -/
def pt0 : Point := (0, 0)

/-! ## The simplifier (`simplify_geojson.py`) -/

/-- Square of `point_line_distance(point, start, end)` from
`simplify_geojson.py`: perpendicular distance from `p` to the segment
`s`–`e`, with the projection parameter clamped to `[0,1]`.  The source
takes `math.sqrt` of this value; comparisons of distances are mirrored
exactly by comparisons of the squares. -/
def point_line_distance_sq (p s e : Point) : ℚ :=
  if s = e then (p.1 - s.1) ^ 2 + (p.2 - s.2) ^ 2
  else
    let dx := e.1 - s.1
    let dy := e.2 - s.2
    let t := max 0 (min 1 (((p.1 - s.1) * dx + (p.2 - s.2) * dy) / (dx * dx + dy * dy)))
    let px := s.1 + t * dx
    let py := s.2 + t * dy
    (p.1 - px) ^ 2 + (p.2 - py) ^ 2

/-- One step of the scan `for i in range(1, len(coords) - 1)` of
`douglas_peucker`: update the running `(max_dist, max_idx)` pair when the
distance at index `i` is strictly greater than the running maximum. -/
def scanStep (d : ℕ → ℚ) (acc : ℚ × ℕ) (i : ℕ) : ℚ × ℕ :=
  if d i > acc.1 then (d i, i) else acc

/-- Squared distance of `coords[i]` to the chord `coords[0]`–`coords[-1]`,
exactly the quantity compared in the scan of `douglas_peucker`. -/
def chord_dist_sq (coords : List Point) (i : ℕ) : ℚ :=
  point_line_distance_sq (coords.getD i pt0) (coords.getD 0 pt0)
    (coords.getD (coords.length - 1) pt0)

/-- Fold of `scanStep` over the indices `1 .. k` starting from
`(max_dist, max_idx) = (0, 0)`, for an arbitrary distance profile `d`. -/
def scanFold (d : ℕ → ℚ) (k : ℕ) : ℚ × ℕ :=
  (List.range' 1 k).foldl (scanStep d) (0, 0)

/-- The scan of `douglas_peucker`: starting from `max_dist = 0`,
`max_idx = 0`, visit the interior indices `1 .. len-2` in order and keep
the first index attaining the (strictly) largest squared distance. -/
def scanMax (coords : List Point) : ℚ × ℕ :=
  scanFold (chord_dist_sq coords) (coords.length - 2)

/-- Fuelled embedding of `douglas_peucker(coords, epsilon)`.  The guard of
the recursive branch is the source's `max_dist > epsilon` (on squares:
`ε * ε < max_dist_sq`) together with `1 ≤ max_idx`; the extra conjunct is
redundant — `ε * ε < max_dist_sq` forces `0 < max_dist_sq`, and the scan
only moves `max_idx` off `0` when it sees a positive distance (see
`scanMax_spec`) — but it makes the fuel bookkeeping direct.  Fuel
`coords.length` always suffices. -/
def dpAux : ℕ → List Point → ℚ → List Point
  | 0, coords, _ => coords
  | fuel + 1, coords, ε =>
    if coords.length ≤ 2 then coords
    else
      let s := scanMax coords
      if ε * ε < s.1 ∧ 1 ≤ s.2 then
        (dpAux fuel (coords.take (s.2 + 1)) ε).dropLast ++ dpAux fuel (coords.drop s.2) ε
      else
        [coords.getD 0 pt0, coords.getD (coords.length - 1) pt0]

/-- `douglas_peucker(coords, epsilon)` from `simplify_geojson.py`. -/
def douglas_peucker (coords : List Point) (ε : ℚ) : List Point :=
  dpAux coords.length coords ε

/-- Python's `round(q, 5)`: round to 5 decimal digits, ties to even,
computed on the exact rational value. -/
def round5 (q : ℚ) : ℚ :=
  let s := q * 100000
  let f : ℤ := ⌊s⌋
  let r := s - f
  (if r < 1 / 2 then (f : ℚ)
   else if 1 / 2 < r then (f : ℚ) + 1
   else if f % 2 = 0 then (f : ℚ) else (f : ℚ) + 1) / 100000

/-- `round_coords(coords)` from `simplify_geojson.py` (precision 5):
round both coordinates of one point. -/
def round_coords (p : Point) : Point := (round5 p.1, round5 p.2)

/-- The closure-repair step of `simplify_ring`: if the first and last points
of the simplified sequence differ, append a copy of the first point.
`simplified[0]` on an empty sequence raises `IndexError`, modelled as
`none` (reachable only for an empty input ring). -/
def repair (s : List Point) : Option (List Point) :=
  match s.head?, s.getLast? with
  | some a, some b => some (if a = b then s else s ++ [a])
  | _, _ => none

/-- `simplify_ring(ring, epsilon)` from `simplify_geojson.py`: simplify,
re-close, reject results with fewer than 4 points (returning the original
ring), and round the coordinates of accepted results. -/
def simplify_ring (ring : List Point) (ε : ℚ) : Option (List Point) :=
  (repair (douglas_peucker ring ε)).map fun closed =>
    if closed.length < 4 then ring else closed.map round_coords

/-! ## The classifier (`app.py`) -/

/-- GeoJSON geometry as consumed by `_point_in_geometry`: the code
dispatches on the `type` tag, with `Polygon` and `MultiPolygon` recognized
and every other tag falling through; `other` keeps the unrecognized tag. -/
inductive Geometry where
  | polygon (rings : List (List Point))
  | multiPolygon (polys : List (List (List Point)))
  | other (tag : String)

/-- The crossing guard of `_point_in_polygon`: `(yi > y) != (yj > y)` —
exactly one endpoint of the edge lies strictly above the ray height. -/
def edge_crosses (y : ℚ) (vi vj : Point) : Bool :=
  decide (vi.2 > y) != decide (vj.2 > y)

/-- The x-intersection of the edge `vj`–`vi` at height `y` as written in
`_point_in_polygon`: `(xj - xi) * (y - yi) / (yj - yi) + xi`. -/
def edge_x_at (y : ℚ) (vi vj : Point) : ℚ :=
  (vj.1 - vi.1) * (y - vi.2) / (vj.2 - vi.2) + vi.1

/-- The body of the loop of `_point_in_polygon`: for index `i` (with `j`
the previous index, `n-1` for `i = 0`), toggle `inside` when the edge
crosses and `x` is strictly left of the edge's x-intersection. -/
def pip_step (x y : ℚ) (ring : List Point) (inside : Bool) (i : ℕ) : Bool :=
  let vi := ring.getD i pt0
  let vj := ring.getD (if i = 0 then ring.length - 1 else i - 1) pt0
  if edge_crosses y vi vj && decide (x < edge_x_at y vi vj) then !inside else inside

/-- The loop of `_point_in_polygon` over one ring: walk `i` over
`range(n)` with `j` the previous index, starting from `inside = False`. -/
def pip_ring (x y : ℚ) (ring : List Point) : Bool :=
  (List.range ring.length).foldl (pip_step x y ring) false

/-- `_point_in_polygon(x, y, coordinates)` from `app.py`: ray casting on
`coordinates[0]` (the exterior ring) only.  `coordinates[0]` raises
`IndexError` when the ring list is empty, modelled as `none`. -/
def point_in_polygon (x y : ℚ) (coordinates : List (List Point)) : Option Bool :=
  match coordinates with
  | [] => none
  | ring :: _ => some (pip_ring x y ring)

/-- The `any(...)` of `_point_in_geometry` over the polygons of a
MultiPolygon: evaluate left to right, short-circuiting at the first `True`;
an `IndexError` (empty polygon) raised before a `True` propagates. -/
def any_poly (x y : ℚ) : List (List (List Point)) → Option Bool
  | [] => some false
  | poly :: rest =>
    match point_in_polygon x y poly with
    | none => none
    | some true => some true
    | some false => any_poly x y rest

/-- `_point_in_geometry(x, y, geometry)` from `app.py`. -/
def point_in_geometry (x y : ℚ) : Geometry → Option Bool
  | .polygon rings => point_in_polygon x y rings
  | .multiPolygon polys => any_poly x y polys
  | .other _ => some false

/-- The classification loop of `api_detect_district`: walk the features in
order, return the first label whose geometry contains the point, and
`none` (the `{'district': None}` response) when no feature matches.  The
outer `Option` models a propagating exception. -/
def detect_district (x y : ℚ) : List (ℤ × Geometry) → Option (Option ℤ)
  | [] => some none
  | (lab, g) :: rest =>
    match point_in_geometry x y g with
    | none => none
    | some true => some (some lab)
    | some false => detect_district x y rest

/-- Well-formedness used by the containment-totality statements: every
polygon of the geometry has a non-empty ring list (its exterior ring
exists, as required by the spec's data model). -/
def geomWF : Geometry → Bool
  | .polygon rings => !rings.isEmpty
  | .multiPolygon polys => polys.all fun poly => !poly.isEmpty
  | .other _ => true

/-- A ring per the spec's data model: its first point exists and equals its
last point. -/
def IsClosedRing (ring : List Point) : Prop :=
  ∃ p, ring.head? = some p ∧ ring.getLast? = some p

/-- Modelled from the spec's words, as the refinement target of C1: the
crossing-number parity over one ring, with the spec's x-intersection
formula `x_j + (x_i - x_j) * (y - y_j) / (y_i - y_j)` for the edge
`(v[j], v[i])` and the toggle condition "exactly one endpoint's
y-coordinate is strictly greater than the point's y, and x strictly less
than the edge's x-intersection". -/
def pip_step_spec (x y : ℚ) (ring : List Point) (inside : Bool) (i : ℕ) : Bool :=
  let vi := ring.getD i pt0
  let vj := ring.getD (if i = 0 then ring.length - 1 else i - 1) pt0
  if edge_crosses y vi vj &&
      decide (x < vj.1 + (vi.1 - vj.1) * (y - vj.2) / (vi.2 - vj.2)) then
    !inside
  else inside

/-- Crossing-number parity over one closed ring as the spec describes it:
start from `inside = false` and walk every edge. -/
def pip_ring_spec (x y : ℚ) (ring : List Point) : Bool :=
  (List.range ring.length).foldl (pip_step_spec x y ring) false

instance (ring : List Point) : Decidable (IsClosedRing ring) := by
  unfold IsClosedRing
  cases h : ring.head? with
  | none => exact .isFalse (by simp [h])
  | some a =>
    exact decidable_of_iff (ring.getLast? = some a)
      ⟨fun hl => ⟨a, rfl, hl⟩, fun ⟨p, hp, hl⟩ => by
        injection hp with e; rw [e]; exact hl⟩

/-! ## Concrete inputs used by witnesses and counterexamples -/

/-- Unit square ring used by the concrete witnesses. -/
def unit_square : List Point := [(0, 0), (0, 1), (1, 1), (1, 0), (0, 0)]

/-- Two overlapping labeled regions (identical unit squares), labels 3, 7. -/
def demo_regions : List (ℤ × Geometry) :=
  [(3, .polygon [unit_square]), (7, .polygon [unit_square])]

/-- Three collinear points: every interior point lies on the chord. -/
def collinear3 : List Point := [(0, 0), (1, 0), (2, 0)]

/-- Four points whose two interior points are at exactly equal (maximal)
distance 1 from the chord `(0,0)`–`(3,0)`. -/
def eqpair : List Point := [(0, 0), (1, 1), (2, 1), (3, 0)]

/-- A three-point polyline whose interior point is off the chord. -/
def coords3 : List Point := [(0, 0), (1, 1), (2, 0)]

/-- A closed triangle ring: 3 vertices plus the closing duplicate. -/
def tri0 : List Point := [(0, 0), (4, 0), (0, 4), (0, 0)]

/-- A closed 5-point ring whose second vertex `(1, 1/1000000)` is almost,
but not exactly, on the segment from `(0,0)` to `(2,0)`; 5-decimal
rounding moves it exactly onto that segment. -/
def ring0 : List Point := [(0, 0), (1, 1 / 1000000), (2, 0), (1, -1), (0, 0)]

/-- A degenerate two-point closed ring. -/
def ring2 : List Point := [(0, 0), (0, 0)]

/-! ## Classifier lemmas -/

lemma edge_crosses_ne (y : ℚ) (vi vj : Point) (h : edge_crosses y vi vj = true) :
    vi.2 ≠ vj.2 := by
  intro he
  rw [edge_crosses, he] at h
  simp at h

lemma edge_x_at_eq_spec (y : ℚ) (vi vj : Point) (h : edge_crosses y vi vj = true) :
    edge_x_at y vi vj = vj.1 + (vi.1 - vj.1) * (y - vj.2) / (vi.2 - vj.2) := by
  have hne : vi.2 ≠ vj.2 := edge_crosses_ne y vi vj h
  have h1 : vj.2 - vi.2 ≠ 0 := sub_ne_zero.mpr (Ne.symm hne)
  have h2 : vi.2 - vj.2 ≠ 0 := sub_ne_zero.mpr hne
  rw [edge_x_at]
  field_simp
  ring

lemma pip_step_eq_spec (x y : ℚ) (ring : List Point) (b : Bool) (i : ℕ) :
    pip_step x y ring b i = pip_step_spec x y ring b i := by
  simp only [pip_step, pip_step_spec]
  by_cases hc : edge_crosses y (ring.getD i pt0)
      (ring.getD (if i = 0 then ring.length - 1 else i - 1) pt0) = true
  · rw [edge_x_at_eq_spec _ _ _ hc]
  · rw [Bool.not_eq_true] at hc
    rw [hc]
    simp

lemma pip_ring_eq_spec (x y : ℚ) (ring : List Point) :
    pip_ring x y ring = pip_ring_spec x y ring := by
  rw [pip_ring, pip_ring_spec]
  exact List.foldl_ext _ _ false fun b i _ => pip_step_eq_spec x y ring b i

lemma any_poly_total (x y : ℚ) (polys : List (List (List Point)))
    (h : ∀ p ∈ polys, p.isEmpty = false) : (any_poly x y polys).isSome := by
  induction polys with
  | nil => rfl
  | cons p ps ih =>
    cases p with
    | nil => exact absurd (h [] (List.mem_cons_self _ _)) (by simp)
    | cons ring rs =>
      simp only [any_poly, point_in_polygon]
      cases hb : pip_ring x y ring
      · exact ih fun q hq => h q (List.mem_cons_of_mem _ hq)
      · rfl

lemma pig_total (x y : ℚ) (g : Geometry) (h : geomWF g = true) :
    (point_in_geometry x y g).isSome := by
  cases g with
  | polygon rings =>
    cases rings with
    | nil => simp [geomWF] at h
    | cons r rs => rfl
  | multiPolygon polys =>
    refine any_poly_total x y polys fun p hp => ?_
    simp only [geomWF, List.all_eq_true] at h
    simpa using h p hp
  | other tag => rfl

/-! ## Claim theorems: classifier -/

/-- C1: for every query point and every Polygon geometry with a non-empty
ring list, the classifier's containment result is exactly the
crossing-number parity of the spec's description (spec formula for the
x-intersection), computed over the first ring only; the remaining rings
never influence the result. -/
theorem claim_c1_polygon_first_ring_parity (x y : ℚ) (r : List Point)
    (rest : List (List Point)) :
    point_in_geometry x y (.polygon (r :: rest)) = some (pip_ring_spec x y r) := by
  show some (pip_ring x y r) = some (pip_ring_spec x y r)
  rw [pip_ring_eq_spec]

/-- C3: the classifier walks the labeled regions in input order and
returns the label of the first region whose geometry contains the point
(`List.find?` on the containment test), and `none` — not an error — when
no region contains the point, including for the empty sequence; in
particular when two regions contain the point the earlier label wins. -/
theorem claim_c3_first_match (x y : ℚ) (regions : List (ℤ × Geometry))
    (hwf : ∀ r ∈ regions, geomWF r.2 = true) :
    detect_district x y regions =
      some ((regions.find? fun r => point_in_geometry x y r.2 == some true).map Prod.fst) := by
  induction regions with
  | nil => rfl
  | cons r rest ih =>
    obtain ⟨lab, g⟩ := r
    have hg : geomWF g = true := hwf _ (List.mem_cons_self _ _)
    have hrest : ∀ q ∈ rest, geomWF q.2 = true := fun q hq => hwf q (List.mem_cons_of_mem _ hq)
    have hsome := pig_total x y g hg
    cases hpg : point_in_geometry x y g with
    | none => rw [hpg] at hsome; exact absurd hsome (by simp)
    | some b =>
      cases b
      · simp only [detect_district, hpg, List.find?_cons]
        simpa using ih hrest
      · simp [detect_district, hpg, List.find?_cons]

/-- C3 witness: both demo regions contain `(1/2, 1/2)` and the earlier
label 3 is returned; `(3/2, 1/2)` lies in neither region and the result is
`None` (no error). -/
theorem claim_c3_witness :
    detect_district (1 / 2) (1 / 2) demo_regions = some (some 3) ∧
    detect_district (3 / 2) (1 / 2) demo_regions = some none := by
  have h1 := claim_c3_first_match (1 / 2) (1 / 2) demo_regions (by decide)
  have h2 := claim_c3_first_match (3 / 2) (1 / 2) demo_regions (by decide)
  refine ⟨h1.trans ?_, h2.trans ?_⟩ <;>
    norm_num [demo_regions, point_in_geometry, point_in_polygon, pip_ring, pip_step,
      unit_square, edge_crosses, edge_x_at, List.range_succ, pt0, List.find?]

/-- C9 counterexample: a well-typed but malformed Polygon — one whose ring
list is empty — makes the containment test evaluate `coordinates[0]` on an
empty list, raising `IndexError` (modelled by `none`), so the containment
test does not avoid errors on all malformed but well-typed data. -/
theorem claim_c9_counterexample : point_in_geometry 0 0 (.polygon []) = none := rfl

/-- C9 (amended): a geometry whose tag is neither `Polygon` nor
`MultiPolygon` is treated as not containing the point and classification
moves on to the next region; the containment test returns a value (never
raises) for every geometry whose polygons all have a non-empty ring list,
while a Polygon with an empty ring list raises `IndexError`. -/
theorem claim_c9_unrecognized_not_containing :
    (∀ (x y : ℚ) (tag : String), point_in_geometry x y (.other tag) = some false) ∧
    (∀ (x y : ℚ) (tag : String) (lab : ℤ) (rest : List (ℤ × Geometry)),
      detect_district x y ((lab, .other tag) :: rest) = detect_district x y rest) ∧
    (∀ (x y : ℚ) (g : Geometry), geomWF g = true → (point_in_geometry x y g).isSome) :=
  ⟨fun _ _ _ => rfl, fun _ _ _ _ _ => rfl, fun x y g h => pig_total x y g h⟩

/-- C9 witness: the amended statement evaluated at a concrete unrecognized
tag and a concrete well-formed polygon. -/
theorem claim_c9_witness :
    point_in_geometry 0 0 (.other "GeometryCollection") = some false ∧
    (point_in_geometry 0 0 (.polygon [[((0 : ℚ), (0 : ℚ))]])).isSome :=
  ⟨claim_c9_unrecognized_not_containing.1 0 0 "GeometryCollection",
   claim_c9_unrecognized_not_containing.2.2 0 0 (.polygon [[((0 : ℚ), (0 : ℚ))]]) rfl⟩

/-- C10: the crossing guard `(yi > y) != (yj > y)` forces the denominator
`yj - yi` of the x-intersection nonzero, so the division-by-zero branch is
unreachable; and on every non-empty ring list the containment test
returns a value. -/
theorem claim_c10_division_guarded :
    (∀ (y : ℚ) (vi vj : Point), edge_crosses y vi vj = true → vj.2 - vi.2 ≠ 0) ∧
    (∀ (x y : ℚ) (r : List Point) (rest : List (List Point)),
      (point_in_polygon x y (r :: rest)).isSome) :=
  ⟨fun y vi vj h => sub_ne_zero.mpr (Ne.symm (edge_crosses_ne y vi vj h)),
   fun _ _ _ _ => rfl⟩

/-- C10 witness: the guard discharged at a concrete crossing edge, and
totality at a concrete one-ring polygon. -/
theorem claim_c10_witness :
    (((0 : ℚ), (-1 : ℚ)).2 - ((0 : ℚ), (1 : ℚ)).2 ≠ 0) ∧
    (point_in_polygon 0 0 ([((0 : ℚ), (0 : ℚ))] :: [])).isSome :=
  ⟨claim_c10_division_guarded.1 0 ((0 : ℚ), (1 : ℚ)) ((0 : ℚ), (-1 : ℚ))
      (by norm_num [edge_crosses]),
   claim_c10_division_guarded.2 0 0 [((0 : ℚ), (0 : ℚ))] []⟩

/-! ## Scan lemmas -/

lemma scanFold_succ (d : ℕ → ℚ) (k : ℕ) :
    scanFold d (k + 1) = scanStep d (scanFold d k) (k + 1) := by
  have h : 1 + 1 * k = k + 1 := by ring
  rw [scanFold, scanFold, List.range'_concat, List.foldl_append, h]
  rfl

lemma scanFold_fst_nonneg (d : ℕ → ℚ) (k : ℕ) : 0 ≤ (scanFold d k).1 := by
  induction k with
  | zero => exact le_refl 0
  | succ k ih =>
    rw [scanFold_succ, scanStep]
    split
    · next h => exact le_of_lt (lt_of_le_of_lt ih h)
    · exact ih

lemma scanFold_le (d : ℕ → ℚ) (k : ℕ) :
    ∀ i, 1 ≤ i → i ≤ k → d i ≤ (scanFold d k).1 := by
  induction k with
  | zero => intro i h1 h2; omega
  | succ k ih =>
    intro i h1 h2
    rw [scanFold_succ, scanStep]
    split
    · next h =>
      by_cases hik : i ≤ k
      · have := ih i h1 hik
        simp only []
        linarith
      · have : i = k + 1 := by omega
        rw [this]
    · next h =>
      by_cases hik : i ≤ k
      · exact ih i h1 hik
      · have hi : i = k + 1 := by omega
        rw [hi]
        linarith [not_lt.mp h]

lemma scanFold_cases (d : ℕ → ℚ) (k : ℕ) :
    scanFold d k = (0, 0) ∨
    (1 ≤ (scanFold d k).2 ∧ (scanFold d k).2 ≤ k ∧
      d (scanFold d k).2 = (scanFold d k).1 ∧ 0 < (scanFold d k).1 ∧
      ∀ i, 1 ≤ i → i < (scanFold d k).2 → d i < (scanFold d k).1) := by
  induction k with
  | zero => left; rfl
  | succ k ih =>
    rw [scanFold_succ, scanStep]
    split
    · next h =>
      right
      refine ⟨by omega, le_refl _, rfl, ?_, ?_⟩
      · exact lt_of_le_of_lt (scanFold_fst_nonneg d k) h
      · intro i h1 h2
        simp only [] at h2 ⊢
        exact lt_of_le_of_lt (scanFold_le d k i h1 (by omega)) h
    · next h =>
      rcases ih with h0 | ⟨h1, h2, h3, h4, h5⟩
      · left; exact h0
      · right; exact ⟨h1, by omega, h3, h4, h5⟩

/-- When the scan's maximum is positive, the chosen index is interior,
attains the maximum, and every earlier interior index is strictly below
the maximum. -/
lemma scanMax_pos (coords : List Point) (h : 0 < (scanMax coords).1) :
    1 ≤ (scanMax coords).2 ∧ (scanMax coords).2 ≤ coords.length - 2 ∧
    chord_dist_sq coords (scanMax coords).2 = (scanMax coords).1 ∧
    ∀ i, 1 ≤ i → i < (scanMax coords).2 →
      chord_dist_sq coords i < (scanMax coords).1 := by
  rcases scanFold_cases (chord_dist_sq coords) (coords.length - 2) with h0 | hs
  · rw [scanMax] at h
    rw [h0] at h
    exact absurd h (lt_irrefl 0)
  · rw [scanMax]
    exact ⟨hs.1, hs.2.1, hs.2.2.1, hs.2.2.2.2⟩

/-- Every interior squared distance is at most the scan's maximum. -/
lemma scanMax_le (coords : List Point) :
    ∀ i, 1 ≤ i → i ≤ coords.length - 2 →
      chord_dist_sq coords i ≤ (scanMax coords).1 :=
  scanFold_le (chord_dist_sq coords) (coords.length - 2)

/-- Determination: a profile with maximum `M` first attained at interior
index `p` (strictly dominating everything before `p`) forces the scan to
return exactly `(M, p)`. -/
lemma scanMax_eq_of_profile (coords : List Point) (M : ℚ) (p : ℕ)
    (hM : 0 < M) (hp1 : 1 ≤ p) (hp2 : p ≤ coords.length - 2)
    (hat : chord_dist_sq coords p = M)
    (hle : ∀ i, 1 ≤ i → i ≤ coords.length - 2 → chord_dist_sq coords i ≤ M)
    (hlt : ∀ i, 1 ≤ i → i < p → chord_dist_sq coords i < M) :
    scanMax coords = (M, p) := by
  have hMle : M ≤ (scanMax coords).1 := by
    have := scanMax_le coords p hp1 hp2
    rw [hat] at this
    exact this
  have hpos : 0 < (scanMax coords).1 := lt_of_lt_of_le hM hMle
  obtain ⟨h1, h2, h3, h5⟩ := scanMax_pos coords hpos
  have hfle : (scanMax coords).1 ≤ M := by
    have := hle (scanMax coords).2 h1 h2
    rw [h3] at this
    exact this
  have hfst : (scanMax coords).1 = M := le_antisymm hfle hMle
  have hsnd : (scanMax coords).2 = p := by
    by_contra hne
    rcases Nat.lt_or_ge (scanMax coords).2 p with hlt2 | hge
    · have := hlt (scanMax coords).2 h1 hlt2
      rw [h3, hfst] at this
      exact absurd this (lt_irrefl M)
    · have hplt : p < (scanMax coords).2 := by omega
      have := h5 p hp1 hplt
      rw [hat, hfst] at this
      exact absurd this (lt_irrefl M)
  rw [← hfst, ← hsnd]

/-! ## Douglas-Peucker: fuel bookkeeping and the recursion equation -/

lemma dp_guard_bounds (coords : List Point) (ε : ℚ) (h : ε * ε < (scanMax coords).1) :
    1 ≤ (scanMax coords).2 ∧ (scanMax coords).2 ≤ coords.length - 2 := by
  have hpos : 0 < (scanMax coords).1 := lt_of_le_of_lt (mul_self_nonneg ε) h
  obtain ⟨a, b, -, -⟩ := scanMax_pos coords hpos
  exact ⟨a, b⟩

lemma dpAux_nil (f : ℕ) (ε : ℚ) : dpAux f [] ε = [] := by
  cases f <;> rfl

lemma dpAux_congr : ∀ (f g : ℕ) (coords : List Point) (ε : ℚ),
    coords.length ≤ f → coords.length ≤ g → dpAux f coords ε = dpAux g coords ε := by
  intro f
  induction f with
  | zero =>
    intro g coords ε hf _
    rw [List.length_eq_zero.mp (Nat.le_zero.mp hf), dpAux_nil, dpAux_nil]
  | succ f ih =>
    intro g coords ε hf hg
    cases g with
    | zero =>
      rw [List.length_eq_zero.mp (Nat.le_zero.mp hg), dpAux_nil, dpAux_nil]
    | succ g =>
      simp only [dpAux]
      by_cases h2 : coords.length ≤ 2
      · rw [if_pos h2, if_pos h2]
      · rw [if_neg h2, if_neg h2]
        by_cases hgd : ε * ε < (scanMax coords).1 ∧ 1 ≤ (scanMax coords).2
        · rw [if_pos hgd, if_pos hgd]
          obtain ⟨hg1, hg2⟩ := dp_guard_bounds coords ε hgd.1
          rw [ih g (coords.take ((scanMax coords).2 + 1)) ε
                (by simp only [List.length_take]; omega)
                (by simp only [List.length_take]; omega),
              ih g (coords.drop (scanMax coords).2) ε
                (by simp only [List.length_drop]; omega)
                (by simp only [List.length_drop]; omega)]
        · rw [if_neg hgd, if_neg hgd]

lemma dp_fuel (f : ℕ) (coords : List Point) (ε : ℚ) (h : coords.length ≤ f) :
    dpAux f coords ε = douglas_peucker coords ε :=
  dpAux_congr f coords.length coords ε h (le_refl _)

lemma dp_small (coords : List Point) (ε : ℚ) (h : coords.length ≤ 2) :
    douglas_peucker coords ε = coords := by
  rw [douglas_peucker]
  cases hl : coords.length with
  | zero => rw [List.length_eq_zero.mp hl]; rfl
  | succ k =>
    simp only [dpAux]
    rw [if_pos h]

lemma dp_unfold (coords : List Point) (ε : ℚ) (h : 2 < coords.length) :
    douglas_peucker coords ε =
      if ε * ε < (scanMax coords).1 ∧ 1 ≤ (scanMax coords).2 then
        (douglas_peucker (coords.take ((scanMax coords).2 + 1)) ε).dropLast ++
          douglas_peucker (coords.drop (scanMax coords).2) ε
      else [coords.getD 0 pt0, coords.getD (coords.length - 1) pt0] := by
  rw [douglas_peucker]
  cases hl : coords.length with
  | zero => omega
  | succ k =>
    simp only [dpAux]
    rw [if_neg (by omega)]
    split
    · next hgd =>
      obtain ⟨hg1, hg2⟩ := dp_guard_bounds coords ε hgd.1
      rw [dp_fuel k (coords.take ((scanMax coords).2 + 1)) ε
            (by simp only [List.length_take]; omega),
          dp_fuel k (coords.drop (scanMax coords).2) ε
            (by simp only [List.length_drop]; omega)]
    · rw [hl]

/-! ## Douglas-Peucker: structural lemmas -/

lemma getD_mem_of_lt (l : List Point) (i : ℕ) (h : i < l.length) : l.getD i pt0 ∈ l := by
  rw [List.getD_eq_getElem?_getD, List.getElem?_eq_getElem h]
  exact List.getElem_mem h

lemma dp_length_ge2_aux :
    ∀ (n : ℕ) (coords : List Point) (ε : ℚ), coords.length ≤ n →
      2 ≤ coords.length → 2 ≤ (douglas_peucker coords ε).length := by
  intro n
  induction n with
  | zero => intro coords ε hn h2; omega
  | succ n ih =>
    intro coords ε hn h2
    by_cases hs : coords.length ≤ 2
    · rw [dp_small coords ε hs]; exact h2
    · rw [dp_unfold coords ε (by omega)]
      split
      · next hgd =>
        obtain ⟨hg1, hg2⟩ := dp_guard_bounds coords ε hgd.1
        have hL := ih (coords.take ((scanMax coords).2 + 1)) ε
          (by simp only [List.length_take]; omega) (by simp only [List.length_take]; omega)
        have hR := ih (coords.drop (scanMax coords).2) ε
          (by simp only [List.length_drop]; omega) (by simp only [List.length_drop]; omega)
        simp only [List.length_append, List.length_dropLast]
        omega
      · simp

lemma dp_length_ge2 (coords : List Point) (ε : ℚ) (h2 : 2 ≤ coords.length) :
    2 ≤ (douglas_peucker coords ε).length :=
  dp_length_ge2_aux coords.length coords ε (le_refl _) h2

lemma dp_ne_nil (coords : List Point) (ε : ℚ) (h : coords ≠ []) :
    douglas_peucker coords ε ≠ [] := by
  rcases Nat.lt_or_ge coords.length 2 with hl | hl
  · rw [dp_small coords ε (by omega)]; exact h
  · have := dp_length_ge2 coords ε hl
    exact List.ne_nil_of_length_pos (by omega)

lemma dp_head?_aux :
    ∀ (n : ℕ) (coords : List Point) (ε : ℚ), coords.length ≤ n → coords ≠ [] →
      (douglas_peucker coords ε).head? = coords.head? := by
  intro n
  induction n with
  | zero =>
    intro coords ε hn hne
    exact absurd (List.length_eq_zero.mp (Nat.le_zero.mp hn)) hne
  | succ n ih =>
    intro coords ε hn hne
    by_cases hs : coords.length ≤ 2
    · rw [dp_small coords ε hs]
    · have h3 : 2 < coords.length := by omega
      rw [dp_unfold coords ε h3]
      split
      · next hgd =>
        obtain ⟨hg1, hg2⟩ := dp_guard_bounds coords ε hgd.1
        have htlen : (coords.take ((scanMax coords).2 + 1)).length = (scanMax coords).2 + 1 := by
          simp only [List.length_take]; omega
        have hL2 : 2 ≤ (douglas_peucker (coords.take ((scanMax coords).2 + 1)) ε).length :=
          dp_length_ge2 _ ε (by omega)
        have hdl : 0 < (douglas_peucker (coords.take ((scanMax coords).2 + 1)) ε).dropLast.length := by
          simp only [List.length_dropLast]; omega
        rw [List.head?_eq_getElem?, List.getElem?_append_left hdl, List.getElem?_dropLast,
          if_pos (by simp only [List.length_dropLast] at hdl; omega),
          ← List.head?_eq_getElem?,
          ih (coords.take ((scanMax coords).2 + 1)) ε (by omega)
            (List.ne_nil_of_length_pos (by omega)),
          List.head?_eq_getElem?, List.getElem?_take_of_lt (by omega),
          ← List.head?_eq_getElem?]
      · cases coords with
        | nil => exact absurd rfl hne
        | cons a t => rfl

lemma dp_head? (coords : List Point) (ε : ℚ) (h : coords ≠ []) :
    (douglas_peucker coords ε).head? = coords.head? :=
  dp_head?_aux coords.length coords ε (le_refl _) h

lemma dp_getLast?_aux :
    ∀ (n : ℕ) (coords : List Point) (ε : ℚ), coords.length ≤ n → coords ≠ [] →
      (douglas_peucker coords ε).getLast? = coords.getLast? := by
  intro n
  induction n with
  | zero =>
    intro coords ε hn hne
    exact absurd (List.length_eq_zero.mp (Nat.le_zero.mp hn)) hne
  | succ n ih =>
    intro coords ε hn hne
    by_cases hs : coords.length ≤ 2
    · rw [dp_small coords ε hs]
    · have h3 : 2 < coords.length := by omega
      rw [dp_unfold coords ε h3]
      split
      · next hgd =>
        obtain ⟨hg1, hg2⟩ := dp_guard_bounds coords ε hgd.1
        have hdlen : (coords.drop (scanMax coords).2).length = coords.length - (scanMax coords).2 := by
          simp only [List.length_drop]
        have hRne : douglas_peucker (coords.drop (scanMax coords).2) ε ≠ [] :=
          dp_ne_nil _ ε (List.ne_nil_of_length_pos (by omega))
        rw [List.getLast?_append,
          ih (coords.drop (scanMax coords).2) ε (by omega)
            (List.ne_nil_of_length_pos (by omega))]
        have : (coords.drop (scanMax coords).2).getLast? = coords.getLast? := by
          rw [List.getLast?_eq_getElem?, List.getLast?_eq_getElem?, List.getElem?_drop]
          congr 1
          simp only [List.length_drop]
          omega
        rw [this]
        cases hg : coords.getLast? with
        | none =>
          rw [List.getLast?_eq_getElem?, List.getElem?_eq_getElem (by omega)] at hg
          exact absurd hg (by simp)
        | some a => rfl
      · have hlast : coords.getLast? = some (coords.getD (coords.length - 1) pt0) := by
          rw [List.getLast?_eq_getElem?, List.getElem?_eq_getElem (by omega),
            List.getD_eq_getElem?_getD, List.getElem?_eq_getElem (by omega)]
          rfl
        rw [hlast]
        rfl

lemma dp_getLast? (coords : List Point) (ε : ℚ) (h : coords ≠ []) :
    (douglas_peucker coords ε).getLast? = coords.getLast? :=
  dp_getLast?_aux coords.length coords ε (le_refl _) h

lemma dp_subset_aux :
    ∀ (n : ℕ) (coords : List Point) (ε : ℚ), coords.length ≤ n →
      douglas_peucker coords ε ⊆ coords := by
  intro n
  induction n with
  | zero =>
    intro coords ε hn
    rw [List.length_eq_zero.mp (Nat.le_zero.mp hn)]
    rw [dp_small [] ε (by simp)]
    exact List.Subset.refl _
  | succ n ih =>
    intro coords ε hn
    by_cases hs : coords.length ≤ 2
    · rw [dp_small coords ε hs]
      exact List.Subset.refl _
    · have h3 : 2 < coords.length := by omega
      rw [dp_unfold coords ε h3]
      split
      · next hgd =>
        obtain ⟨hg1, hg2⟩ := dp_guard_bounds coords ε hgd.1
        refine List.append_subset.mpr ⟨?_, ?_⟩
        · exact fun a ha =>
            List.take_subset _ _
              (ih (coords.take ((scanMax coords).2 + 1)) ε
                (by simp only [List.length_take]; omega)
                ((List.dropLast_sublist _).subset ha))
        · exact fun a ha =>
            List.drop_subset _ _
              (ih (coords.drop (scanMax coords).2) ε
                (by simp only [List.length_drop]; omega) ha)
      · intro a ha
        rcases List.mem_pair.mp ha with h | h <;> rw [h]
        · exact getD_mem_of_lt coords 0 (by omega)
        · exact getD_mem_of_lt coords (coords.length - 1) (by omega)

lemma dp_subset (coords : List Point) (ε : ℚ) : douglas_peucker coords ε ⊆ coords :=
  dp_subset_aux coords.length coords ε (le_refl _)

lemma getD_take (l : List Point) (m i : ℕ) (h : i < m) :
    (l.take m).getD i pt0 = l.getD i pt0 := by
  rw [List.getD_eq_getElem?_getD, List.getD_eq_getElem?_getD, List.getElem?_take_of_lt h]

lemma getD_drop (l : List Point) (m i : ℕ) :
    (l.drop m).getD i pt0 = l.getD (m + i) pt0 := by
  rw [List.getD_eq_getElem?_getD, List.getD_eq_getElem?_getD, List.getElem?_drop]

lemma getD_dropLast (l : List Point) (i : ℕ) (h : i < l.length - 1) :
    l.dropLast.getD i pt0 = l.getD i pt0 := by
  rw [List.getD_eq_getElem?_getD, List.getD_eq_getElem?_getD, List.getElem?_dropLast,
    if_pos h]

/-- Every interior position of a Douglas-Peucker result holds the value of
some interior index of the input sequence. -/
lemma dp_interior_aux :
    ∀ (n : ℕ) (coords : List Point) (ε : ℚ), coords.length ≤ n →
      ∀ k, 1 ≤ k → k ≤ (douglas_peucker coords ε).length - 2 →
        ∃ i, 1 ≤ i ∧ i ≤ coords.length - 2 ∧
          (douglas_peucker coords ε).getD k pt0 = coords.getD i pt0 := by
  intro n
  induction n with
  | zero =>
    intro coords ε hn k hk1 hk2
    rw [List.length_eq_zero.mp (Nat.le_zero.mp hn)] at hk2
    rw [dp_small [] ε (by simp)] at hk2
    simp at hk2
    omega
  | succ n ih =>
    intro coords ε hn k hk1 hk2
    by_cases hs : coords.length ≤ 2
    · rw [dp_small coords ε hs] at hk2 ⊢
      exact ⟨k, hk1, hk2, rfl⟩
    · have h3 : 2 < coords.length := by omega
      rw [dp_unfold coords ε h3] at hk2 ⊢
      by_cases hgd : ε * ε < (scanMax coords).1 ∧ 1 ≤ (scanMax coords).2
      · rw [if_pos hgd] at hk2 ⊢
        obtain ⟨hg1, hg2⟩ := dp_guard_bounds coords ε hgd.1
        set mi := (scanMax coords).2 with hmi
        set L := douglas_peucker (coords.take (mi + 1)) ε with hLdef
        set R := douglas_peucker (coords.drop mi) ε with hRdef
        have htlen : (coords.take (mi + 1)).length = mi + 1 := by
          simp only [List.length_take]; omega
        have hdlen : (coords.drop mi).length = coords.length - mi := by
          simp only [List.length_drop]
        have hL2 : 2 ≤ L.length := dp_length_ge2 _ ε (by omega)
        have hR2 : 2 ≤ R.length := dp_length_ge2 _ ε (by omega)
        have hlen : (L.dropLast ++ R).length = L.length - 1 + R.length := by
          simp only [List.length_append, List.length_dropLast]
        rw [hlen] at hk2
        rcases Nat.lt_or_ge k (L.length - 1) with hkL | hkR
        · have e1 : (L.dropLast ++ R).getD k pt0 = L.getD k pt0 := by
            rw [List.getD_append _ _ _ _ (by simp only [List.length_dropLast]; omega)]
            exact getD_dropLast L k hkL
          obtain ⟨i, hi1, hi2, hieq⟩ :=
            ih (coords.take (mi + 1)) ε (by omega) k hk1 (by rw [← hLdef]; omega)
          rw [htlen] at hi2
          refine ⟨i, hi1, by omega, ?_⟩
          rw [e1, hieq, getD_take coords (mi + 1) i (by omega)]
        · rcases Nat.eq_or_lt_of_le hkR with hkEq | hkGt
          · have e1 : (L.dropLast ++ R).getD k pt0 = R.getD 0 pt0 := by
              rw [List.getD_append_right _ _ _ _
                (by simp only [List.length_dropLast]; omega)]
              congr 1
              simp only [List.length_dropLast]
              omega
            refine ⟨mi, hg1, hg2, ?_⟩
            rw [e1]
            have hRh : R.head? = (coords.drop mi).head? :=
              dp_head? _ ε (List.ne_nil_of_length_pos (by omega))
            rw [List.getD_eq_getElem?_getD, ← List.head?_eq_getElem?, hRh,
              List.head?_eq_getElem?, List.getElem?_drop, Nat.add_zero,
              ← List.getD_eq_getElem?_getD]
          · have e1 : (L.dropLast ++ R).getD k pt0 = R.getD (k - (L.length - 1)) pt0 := by
              rw [List.getD_append_right _ _ _ _
                (by simp only [List.length_dropLast]; omega)]
              congr 1
              simp only [List.length_dropLast]
            obtain ⟨i2, hi1, hi2, hieq⟩ :=
              ih (coords.drop mi) ε (by omega) (k - (L.length - 1)) (by omega)
                (by rw [← hRdef]; omega)
            rw [hdlen] at hi2
            refine ⟨mi + i2, by omega, by omega, ?_⟩
            rw [e1, hieq, getD_drop]
      · rw [if_neg hgd] at hk2
        simp at hk2
        omega

lemma dp_interior (coords : List Point) (ε : ℚ) :
    ∀ k, 1 ≤ k → k ≤ (douglas_peucker coords ε).length - 2 →
      ∃ i, 1 ≤ i ∧ i ≤ coords.length - 2 ∧
        (douglas_peucker coords ε).getD k pt0 = coords.getD i pt0 :=
  dp_interior_aux coords.length coords ε (le_refl _)

lemma getD_eq_getElem?_some (l : List Point) (i : ℕ) (h : i < l.length) :
    l[i]? = some (l.getD i pt0) := by
  rw [List.getD_eq_getElem?_getD, List.getElem?_eq_getElem h]
  rfl

lemma dp_getD0 (coords : List Point) (ε : ℚ) (h : coords ≠ []) :
    (douglas_peucker coords ε).getD 0 pt0 = coords.getD 0 pt0 := by
  rw [List.getD_eq_getElem?_getD, List.getD_eq_getElem?_getD, ← List.head?_eq_getElem?,
    ← List.head?_eq_getElem?, dp_head? coords ε h]

lemma dp_getDlast (coords : List Point) (ε : ℚ) (h : coords ≠ []) :
    (douglas_peucker coords ε).getD ((douglas_peucker coords ε).length - 1) pt0 =
      coords.getD (coords.length - 1) pt0 := by
  rw [List.getD_eq_getElem?_getD, List.getD_eq_getElem?_getD, ← List.getLast?_eq_getElem?,
    ← List.getLast?_eq_getElem?, dp_getLast? coords ε h]

lemma take_getLast?_eq (coords : List Point) (m : ℕ) (h1 : 1 ≤ m) (h2 : m ≤ coords.length) :
    (coords.take m).getLast? = some (coords.getD (m - 1) pt0) := by
  rw [List.getLast?_eq_getElem?, List.length_take, min_eq_left h2,
    List.getElem?_take_of_lt (by omega)]
  exact getD_eq_getElem?_some coords (m - 1) (by omega)

lemma drop_head?_eq (coords : List Point) (m : ℕ) (h : m < coords.length) :
    (coords.drop m).head? = some (coords.getD m pt0) := by
  rw [List.head?_eq_getElem?, List.getElem?_drop, Nat.add_zero]
  exact getD_eq_getElem?_some coords m h

lemma dropLast_append_eq_tail (A B : List Point) (m : Point)
    (hA : A.getLast? = some m) (hB : B.head? = some m) :
    A.dropLast ++ B = A ++ B.tail := by
  have h1 : A.dropLast ++ [m] = A := List.dropLast_append_getLast? m hA
  have h2 : m :: B.tail = B := List.cons_head?_tail hB
  calc A.dropLast ++ B = A.dropLast ++ (m :: B.tail) := by rw [h2]
    _ = (A.dropLast ++ [m]) ++ B.tail := by simp
    _ = A ++ B.tail := by rw [h1]

/-! ## Douglas-Peucker is idempotent -/

lemma dp_idem_aux :
    ∀ (n : ℕ) (coords : List Point) (ε : ℚ), coords.length ≤ n →
      douglas_peucker (douglas_peucker coords ε) ε = douglas_peucker coords ε := by
  intro n
  induction n with
  | zero =>
    intro coords ε hn
    rw [List.length_eq_zero.mp (Nat.le_zero.mp hn)]
    rw [dp_small [] ε (by simp), dp_small [] ε (by simp)]
  | succ n ih =>
    intro coords ε hn
    by_cases hs : coords.length ≤ 2
    · rw [dp_small coords ε hs, dp_small coords ε hs]
    · have h3 : 2 < coords.length := by omega
      by_cases hgd : ε * ε < (scanMax coords).1 ∧ 1 ≤ (scanMax coords).2
      case neg =>
        rw [dp_unfold coords ε h3, if_neg hgd]
        exact dp_small _ ε (by simp)
      case pos =>
        obtain ⟨hg1, hg2⟩ := dp_guard_bounds coords ε hgd.1
        have hM : 0 < (scanMax coords).1 := lt_of_le_of_lt (mul_self_nonneg ε) hgd.1
        have hc0ne : coords ≠ [] := List.ne_nil_of_length_pos (by omega)
        obtain ⟨-, -, hmd_at, hmd_lt⟩ := scanMax_pos coords hM
        set mi := (scanMax coords).2 with hmidef
        set L := douglas_peucker (coords.take (mi + 1)) ε with hLdef
        set R := douglas_peucker (coords.drop mi) ε with hRdef
        have htlen : (coords.take (mi + 1)).length = mi + 1 := by
          simp only [List.length_take]; omega
        have hdlen : (coords.drop mi).length = coords.length - mi := by
          simp only [List.length_drop]
        have htne : coords.take (mi + 1) ≠ [] := List.ne_nil_of_length_pos (by omega)
        have hdne : coords.drop mi ≠ [] := List.ne_nil_of_length_pos (by omega)
        have hL2 : 2 ≤ L.length := by rw [hLdef]; exact dp_length_ge2 _ ε (by omega)
        have hR2 : 2 ≤ R.length := by rw [hRdef]; exact dp_length_ge2 _ ε (by omega)
        have hres : douglas_peucker coords ε = L.dropLast ++ R := by
          rw [dp_unfold coords ε h3, if_pos hgd]
        have hreslen : (douglas_peucker coords ε).length = L.length - 1 + R.length := by
          rw [hres]
          simp only [List.length_append, List.length_dropLast]
        have hgd0 : (douglas_peucker coords ε).getD 0 pt0 = coords.getD 0 pt0 :=
          dp_getD0 coords ε hc0ne
        have hgdl : (douglas_peucker coords ε).getD ((douglas_peucker coords ε).length - 1) pt0 =
            coords.getD (coords.length - 1) pt0 := dp_getDlast coords ε hc0ne
        have hRhead : R.head? = some (coords.getD mi pt0) := by
          rw [hRdef, dp_head? _ ε hdne]
          exact drop_head?_eq coords mi (by omega)
        have hLlast : L.getLast? = some (coords.getD mi pt0) := by
          rw [hLdef, dp_getLast? _ ε htne]
          have := take_getLast?_eq coords (mi + 1) (by omega) (by omega)
          rwa [Nat.add_sub_cancel] at this
        have hmid : (douglas_peucker coords ε).getD (L.length - 1) pt0 =
            coords.getD mi pt0 := by
          rw [hres, List.getD_append_right _ _ _ _
            (by simp only [List.length_dropLast]; omega)]
          have e0 : L.length - 1 - L.dropLast.length = 0 := by
            simp only [List.length_dropLast]; omega
          rw [e0, List.getD_eq_getElem?_getD, ← List.head?_eq_getElem?, hRhead]
          rfl
        have hscan : scanMax (douglas_peucker coords ε) = ((scanMax coords).1, L.length - 1) := by
          apply scanMax_eq_of_profile _ _ _ hM (by omega) (by omega)
          · rw [chord_dist_sq, hmid, hgd0, hgdl]
            rw [chord_dist_sq] at hmd_at
            exact hmd_at
          · intro k hk1 hk2
            obtain ⟨i, hi1, hi2, hieq⟩ := dp_interior coords ε k hk1 hk2
            rw [chord_dist_sq, hieq, hgd0, hgdl]
            have := scanMax_le coords i hi1 hi2
            rw [chord_dist_sq] at this
            exact this
          · intro k hk1 hkL
            have e1 : (douglas_peucker coords ε).getD k pt0 = L.getD k pt0 := by
              rw [hres, List.getD_append _ _ _ _
                (by simp only [List.length_dropLast]; omega)]
              exact getD_dropLast L k (by omega)
            obtain ⟨i, hi1, hi2, hieq⟩ :=
              dp_interior (coords.take (mi + 1)) ε k hk1 (by rw [← hLdef]; omega)
            rw [← hLdef] at hieq
            rw [htlen] at hi2
            have e2 : (coords.take (mi + 1)).getD i pt0 = coords.getD i pt0 :=
              getD_take coords (mi + 1) i (by omega)
            rw [chord_dist_sq, e1, hieq, e2, hgd0, hgdl]
            have := hmd_lt i hi1 (by omega)
            rw [chord_dist_sq] at this
            exact this
        have hreslen3 : 2 < (douglas_peucker coords ε).length := by omega
        have htake : (douglas_peucker coords ε).take (L.length - 1 + 1) = L := by
          have hLcons : L.dropLast ++ [coords.getD mi pt0] = L :=
            List.dropLast_append_getLast? _ hLlast
          have hRcons : coords.getD mi pt0 :: R.tail = R := List.cons_head?_tail hRhead
          have e1 : L.length - 1 + 1 = L.dropLast.length + 1 := by
            simp only [List.length_dropLast]
          rw [hres, e1, List.take_append, ← hRcons, List.take_succ_cons, List.take_zero]
          exact hLcons
        have hdrop : (douglas_peucker coords ε).drop (L.length - 1) = R := by
          rw [hres]
          exact List.drop_left' (by simp only [List.length_dropLast])
        have hihL : douglas_peucker L ε = L := by
          rw [hLdef]
          exact ih (coords.take (mi + 1)) ε (by omega)
        have hihR : douglas_peucker R ε = R := by
          rw [hRdef]
          exact ih (coords.drop mi) ε (by omega)
        rw [dp_unfold (douglas_peucker coords ε) ε hreslen3, hscan]
        simp only []
        rw [if_pos ⟨hgd.1, by omega⟩, htake, hdrop, hihL, hihR, hres]

lemma dp_idem (coords : List Point) (ε : ℚ) :
    douglas_peucker (douglas_peucker coords ε) ε = douglas_peucker coords ε :=
  dp_idem_aux coords.length coords ε (le_refl _)

/-! ## simplify_ring lemmas -/

lemma repair_of_closed (s : List Point) (p : Point) (hh : s.head? = some p)
    (hl : s.getLast? = some p) : repair s = some s := by
  unfold repair
  rw [hh, hl]
  simp

lemma map_round_eq_self {l : List Point} (h : l.map round_coords = l) :
    ∀ q ∈ l, round_coords q = q := by
  induction l with
  | nil => intro q hq; exact absurd hq (by simp)
  | cons a t ih =>
    rw [List.map_cons, List.cons.injEq] at h
    intro q hq
    rcases List.mem_cons.mp hq with rfl | hq2
    · exact h.1
    · exact ih h.2 q hq2

/-! ## Claim theorems: simplifier -/

/-- C2: for sequences of more than 2 points, when the scan's maximum
(squared) distance exceeds `epsilon` (squared), the Douglas-Peucker result
is the simplified left part `[start .. selected]` concatenated with the
simplified right part `[selected .. end]` minus that right part's first
point; otherwise it is exactly `[start, end]`. -/
theorem claim_c2_recursion (coords : List Point) (ε : ℚ) (hε : 0 ≤ ε)
    (hlen : 2 < coords.length) :
    (ε * ε < (scanMax coords).1 →
      douglas_peucker coords ε =
        douglas_peucker (coords.take ((scanMax coords).2 + 1)) ε ++
          (douglas_peucker (coords.drop (scanMax coords).2) ε).tail) ∧
    ((scanMax coords).1 ≤ ε * ε →
      douglas_peucker coords ε =
        [coords.getD 0 pt0, coords.getD (coords.length - 1) pt0]) := by
  constructor
  · intro hgt
    obtain ⟨hg1, hg2⟩ := dp_guard_bounds coords ε hgt
    rw [dp_unfold coords ε hlen, if_pos ⟨hgt, hg1⟩]
    apply dropLast_append_eq_tail _ _ (coords.getD (scanMax coords).2 pt0)
    · rw [dp_getLast? _ ε
        (List.ne_nil_of_length_pos (by simp only [List.length_take]; omega))]
      have := take_getLast?_eq coords ((scanMax coords).2 + 1) (by omega) (by omega)
      rwa [Nat.add_sub_cancel] at this
    · rw [dp_head? _ ε
        (List.ne_nil_of_length_pos (by simp only [List.length_drop]; omega))]
      exact drop_head?_eq coords (scanMax coords).2 (by omega)
  · intro hle
    rw [dp_unfold coords ε hlen, if_neg (fun hc => absurd hc.1 (not_lt.mpr hle))]

/-- C4: simplifying a closed ring yields a closed ring, for every
epsilon ≥ 0: the repair step re-closes, rounding maps equal endpoints to
equal endpoints, and the degenerate branch returns the closed input. -/
theorem claim_c4_closure (ring : List Point) (ε : ℚ) (hε : 0 ≤ ε)
    (hcl : IsClosedRing ring) :
    ∃ R, simplify_ring ring ε = some R ∧ IsClosedRing R := by
  obtain ⟨p, hh, hl⟩ := hcl
  have hne : ring ≠ [] := by intro h; rw [h] at hh; exact absurd hh (by simp)
  have hdh : (douglas_peucker ring ε).head? = some p := by
    rw [dp_head? ring ε hne]; exact hh
  have hdl : (douglas_peucker ring ε).getLast? = some p := by
    rw [dp_getLast? ring ε hne]; exact hl
  rw [simplify_ring, repair_of_closed _ p hdh hdl, Option.map_some']
  by_cases hlen : (douglas_peucker ring ε).length < 4
  · rw [if_pos hlen]
    exact ⟨ring, rfl, ⟨p, hh, hl⟩⟩
  · rw [if_neg hlen]
    refine ⟨(douglas_peucker ring ε).map round_coords, rfl, ⟨round_coords p, ?_, ?_⟩⟩
    · rw [List.head?_map, hdh]; rfl
    · rw [List.getLast?_map, hdl]; rfl

/-- C5: whenever the closed, repaired simplification result exists and has
fewer than 4 points, `simplify_ring` returns the original input ring, with
no rounding applied to it. -/
theorem claim_c5_degeneracy (ring : List Point) (ε : ℚ) (C : List Point) (hε : 0 ≤ ε)
    (hrep : repair (douglas_peucker ring ε) = some C) (hlen : C.length < 4) :
    simplify_ring ring ε = some ring := by
  rw [simplify_ring, hrep, Option.map_some', if_pos hlen]

/-- C8: a (closed, hence non-empty) ring with at most 2 points is returned
unchanged by `simplify_ring`, for every epsilon ≥ 0. -/
theorem claim_c8_small_unchanged (ring : List Point) (ε : ℚ) (hε : 0 ≤ ε)
    (hcl : IsClosedRing ring) (hlen : ring.length ≤ 2) :
    simplify_ring ring ε = some ring := by
  obtain ⟨p, hh, hl⟩ := hcl
  rw [simplify_ring, dp_small ring ε hlen, repair_of_closed ring p hh hl,
    Option.map_some', if_pos (by omega)]

/-- C6 (amended): for every sequence of more than 2 points, every interior
point's squared distance is at most the scan's maximum, and whenever the
scan's maximum is positive — in particular whenever the recursive split is
taken, since `epsilon ≥ 0` — the chosen split index is the lowest interior
index attaining that maximum: the strict `>` comparison means later
equal-distance points never replace it.  (When every interior point lies
exactly on the chord, the scan leaves `max_idx` at the non-interior index
0, which the algorithm never uses as a split point.) -/
theorem claim_c6_tiebreak (coords : List Point) (h : 2 < coords.length) :
    (∀ i, 1 ≤ i → i ≤ coords.length - 2 →
      chord_dist_sq coords i ≤ (scanMax coords).1) ∧
    (0 < (scanMax coords).1 →
      1 ≤ (scanMax coords).2 ∧ (scanMax coords).2 ≤ coords.length - 2 ∧
      chord_dist_sq coords (scanMax coords).2 = (scanMax coords).1 ∧
      ∀ i, 1 ≤ i → i < (scanMax coords).2 →
        chord_dist_sq coords i < (scanMax coords).1) :=
  ⟨scanMax_le coords, scanMax_pos coords⟩

/-- C7 (amended): `simplify_ring` is idempotent on every closed ring whose
coordinates are unchanged by 5-decimal rounding (for every epsilon ≥ 0);
without that restriction the rounding step can move a kept vertex exactly
onto a chord and the second application differs (see the counterexample). -/
theorem claim_c7_idempotent (ring : List Point) (ε : ℚ) (hε : 0 ≤ ε)
    (hcl : IsClosedRing ring) (hfix : ring.map round_coords = ring) :
    (simplify_ring ring ε).bind (fun r => simplify_ring r ε) = simplify_ring ring ε := by
  obtain ⟨p, hh, hl⟩ := hcl
  have hne : ring ≠ [] := by intro h; rw [h] at hh; exact absurd hh (by simp)
  have hdh : (douglas_peucker ring ε).head? = some p := by
    rw [dp_head? ring ε hne]; exact hh
  have hdl : (douglas_peucker ring ε).getLast? = some p := by
    rw [dp_getLast? ring ε hne]; exact hl
  have hdfix : (douglas_peucker ring ε).map round_coords = douglas_peucker ring ε := by
    have : ∀ q ∈ douglas_peucker ring ε, round_coords q = q :=
      fun q hq => map_round_eq_self hfix q (dp_subset ring ε hq)
    rw [List.map_congr_left this, List.map_id']
  by_cases hlen : (douglas_peucker ring ε).length < 4
  · have hS : simplify_ring ring ε = some ring := by
      rw [simplify_ring, repair_of_closed _ p hdh hdl, Option.map_some', if_pos hlen]
    rw [hS]
    show simplify_ring ring ε = some ring
    exact hS
  · have hS : simplify_ring ring ε = some (douglas_peucker ring ε) := by
      rw [simplify_ring, repair_of_closed _ p hdh hdl, Option.map_some',
        if_neg hlen, hdfix]
    rw [hS]
    show simplify_ring (douglas_peucker ring ε) ε = some (douglas_peucker ring ε)
    have hidem := dp_idem ring ε
    have hdh2 : (douglas_peucker (douglas_peucker ring ε) ε).head? = some p := by
      rw [hidem]; exact hdh
    have hdl2 : (douglas_peucker (douglas_peucker ring ε) ε).getLast? = some p := by
      rw [hidem]; exact hdl
    rw [simplify_ring, repair_of_closed _ p hdh2 hdl2, Option.map_some', hidem,
      if_neg hlen, hdfix]

/-! ## Witnesses and counterexamples: simplifier -/

/-- C2 witness: at `coords3` with `epsilon = 0` the scan selects index 1
and the recursion equation instantiates concretely. -/
theorem claim_c2_witness :
    douglas_peucker coords3 0 =
      douglas_peucker (coords3.take 2) 0 ++ (douglas_peucker (coords3.drop 1) 0).tail := by
  have hscan : scanMax coords3 = (1, 1) := by
    norm_num [scanMax, scanFold, scanStep, chord_dist_sq, point_line_distance_sq,
      coords3, List.range', List.getD, min_def, max_def,
      -Prod.mk_zero_zero, -Prod.mk_one_one, Prod.ext_iff]
  have h := (claim_c2_recursion coords3 0 (le_refl 0) (by norm_num [coords3])).1
  rw [hscan] at h
  simpa using h (by norm_num)

/-- C4 witness: the closure theorem applied to the unit square at
epsilon 0. -/
theorem claim_c4_witness :
    ∃ R, simplify_ring unit_square 0 = some R ∧ IsClosedRing R :=
  claim_c4_closure unit_square 0 (le_refl 0) ⟨(0, 0), rfl, rfl⟩

/-- C5 witness: the triangle ring at a huge epsilon collapses to 2 points,
the repaired result has fewer than 4 points, and the original ring is
returned unchanged. -/
theorem claim_c5_witness :
    repair (douglas_peucker tri0 100) = some [((0 : ℚ), (0 : ℚ)), (0, 0)] ∧
    simplify_ring tri0 100 = some tri0 := by
  have hdp : douglas_peucker tri0 100 = [((0 : ℚ), (0 : ℚ)), (0, 0)] := by
    norm_num [douglas_peucker, dpAux, scanMax, scanFold, scanStep, chord_dist_sq,
      point_line_distance_sq, tri0, List.range', List.getD, min_def, max_def,
      -Prod.mk_zero_zero, -Prod.mk_one_one, Prod.ext_iff]
  have hrep : repair (douglas_peucker tri0 100) = some [((0 : ℚ), (0 : ℚ)), (0, 0)] := by
    rw [hdp]
    simp [repair]
  exact ⟨hrep, claim_c5_degeneracy tri0 100 _ (by norm_num) hrep (by norm_num)⟩

/-- C6 counterexample: on three collinear points the interior index 1
attains the maximum distance (0) to the chord, yet the scan's chosen index
stays at 0, which is not an interior index — so the claim that the chosen
split point is always the lowest-index interior point attaining the
maximum fails on all-collinear input. -/
theorem claim_c6_counterexample :
    scanMax collinear3 = (0, 0) ∧
    chord_dist_sq collinear3 1 = (scanMax collinear3).1 ∧
    (scanMax collinear3).2 ≠ 1 := by
  have h : scanMax collinear3 = (0, 0) := by
    norm_num [scanMax, scanFold, scanStep, chord_dist_sq, point_line_distance_sq,
      collinear3, List.range', List.getD, min_def, max_def,
      -Prod.mk_zero_zero, -Prod.mk_one_one, Prod.ext_iff]
  refine ⟨h, ?_, ?_⟩
  · rw [h]
    norm_num [chord_dist_sq, point_line_distance_sq, collinear3, List.getD,
      min_def, max_def, -Prod.mk_zero_zero, -Prod.mk_one_one, Prod.ext_iff]
  · rw [h]
    norm_num

/-- C6 witness: with two interior points at exactly equal maximal distance
the scan keeps the earlier index 1; the later equal-distance index 2 does
not replace it. -/
theorem claim_c6_witness :
    0 < (scanMax eqpair).1 ∧ (scanMax eqpair).2 = 1 ∧
    chord_dist_sq eqpair (scanMax eqpair).2 = (scanMax eqpair).1 ∧
    chord_dist_sq eqpair 2 = (scanMax eqpair).1 := by
  have hscan : scanMax eqpair = (1, 1) := by
    norm_num [scanMax, scanFold, scanStep, chord_dist_sq, point_line_distance_sq,
      eqpair, List.range', List.getD, min_def, max_def,
      -Prod.mk_zero_zero, -Prod.mk_one_one, Prod.ext_iff]
  have hpos : 0 < (scanMax eqpair).1 := by rw [hscan]; norm_num
  obtain ⟨-, -, h3, -⟩ := (claim_c6_tiebreak eqpair (by norm_num [eqpair])).2 hpos
  refine ⟨hpos, by rw [hscan], h3, ?_⟩
  rw [hscan]
  norm_num [chord_dist_sq, point_line_distance_sq, eqpair, List.getD,
    min_def, max_def, -Prod.mk_zero_zero, -Prod.mk_one_one, Prod.ext_iff]

set_option maxHeartbeats 1000000 in
/-- C7 counterexample: the first simplification of `ring0` at epsilon 0
keeps all five points but rounds `(1, 1/1000000)` to `(1, 0)`, which lies
exactly on the chord from `(0,0)` to `(2,0)`; the second simplification
drops it, so simplify composed with itself differs from simplify. -/
theorem claim_c7_counterexample :
    (simplify_ring ring0 0).bind (fun r => simplify_ring r 0) ≠ simplify_ring ring0 0 := by
  have h1 : simplify_ring ring0 0 =
      some [((0 : ℚ), (0 : ℚ)), (1, 0), (2, 0), (1, -1), (0, 0)] := by
    norm_num [simplify_ring, repair, douglas_peucker, dpAux, scanMax, scanFold,
      scanStep, chord_dist_sq, point_line_distance_sq, ring0, List.range', List.getD,
      min_def, max_def, round_coords, round5,
      -Prod.mk_zero_zero, -Prod.mk_one_one, Prod.ext_iff]
  have h2 : simplify_ring [((0 : ℚ), (0 : ℚ)), (1, 0), (2, 0), (1, -1), (0, 0)] 0 =
      some [((0 : ℚ), (0 : ℚ)), (2, 0), (1, -1), (0, 0)] := by
    norm_num [simplify_ring, repair, douglas_peucker, dpAux, scanMax, scanFold,
      scanStep, chord_dist_sq, point_line_distance_sq, List.range', List.getD,
      min_def, max_def, round_coords, round5,
      -Prod.mk_zero_zero, -Prod.mk_one_one, Prod.ext_iff]
  rw [h1]
  show simplify_ring [((0 : ℚ), (0 : ℚ)), (1, 0), (2, 0), (1, -1), (0, 0)] 0 ≠
    some [((0 : ℚ), (0 : ℚ)), (1, 0), (2, 0), (1, -1), (0, 0)]
  rw [h2]
  norm_num [-Prod.mk_zero_zero, -Prod.mk_one_one, Prod.ext_iff]

/-- C7 witness: the amended idempotence applied to the integer triangle
ring, whose coordinates are fixed by 5-decimal rounding, at epsilon 0. -/
theorem claim_c7_witness :
    (simplify_ring tri0 0).bind (fun r => simplify_ring r 0) = simplify_ring tri0 0 :=
  claim_c7_idempotent tri0 0 (le_refl 0) ⟨(0, 0), rfl, rfl⟩ (by
    norm_num [tri0, round_coords, round5,
      -Prod.mk_zero_zero, -Prod.mk_one_one, Prod.ext_iff])

/-- C8 witness: a two-point closed ring is returned unchanged. -/
theorem claim_c8_witness : simplify_ring ring2 0 = some ring2 :=
  claim_c8_small_unchanged ring2 0 (le_refl 0) ⟨(0, 0), rfl, rfl⟩ (by norm_num [ring2])

end NH
